import Mathlib

/-!
Verification of the GFC dynamic reference array (`gfc_list`).

The repository ships only the public header `src/include/gfc_list.h`
(declarations and doc comments); the implementation file `gfc_list.c` is not
part of the sources.  The operations below are therefore modelled from the
specification and the header's doc comments, as a shallow embedding:

* a `void *` reference value is modelled as a natural number (an abstract
  address, `0` playing the role of NULL);
* the backing storage is modelled as a Lean list of slots whose length is the
  allocated capacity (the header's `size` field); the header's `count` field
  is kept explicitly;
* a possibly-NULL `List *` argument or result is an `Option GfcList`;
* allocation never fails in the model (the claims under study all concern the
  successful paths and the documented error sentinels for out-of-range or
  NULL arguments, not out-of-memory behaviour);
* `int` status codes are `Int` (`0` success, `-1` error), returned next to the
  post-state of the container, since C mutates in place;
* the contents of unoccupied slack slots (indices in `[count, size)`) are
  indeterminate garbage in C that no operation ever reads; the model fills
  them with `0`.
-/

/-- Model of the opaque `void *` reference values stored by the container:
abstract addresses, with `0` standing for NULL. -/
abbrev Ptr := Nat

/-- Embedding of `ListElementData`: one slot, wrapping a single opaque
reference with no further metadata. -/
structure ListElementData where
  data : Ptr
  deriving DecidableEq, Repr

/-- Embedding of the C `List` struct.  `elements` is the backing storage, one
entry per allocated slot, so the C `size` field is `elements.length`;
`count` is the number of slots in logical use. -/
structure GfcList where
  elements : List ListElementData
  count : Nat
  deriving DecidableEq, Repr

/-- The C struct's `size` field: the allocated capacity. -/
def GfcList.size (l : GfcList) : Nat := l.elements.length

/-- The container invariant: `count ≤ size`.  (Occupied slots are by
definition the indices `< count`, so prefix-packing is structural in the
model.) -/
abbrev gfc_inv (l : GfcList) : Prop := l.count ≤ l.elements.length

/-- The invariant lifted to a possibly-NULL container. -/
def gfc_inv_opt : Option GfcList → Prop
  | none => True
  | some l => gfc_inv l

/-- Modelled from the spec: the implementation-defined default capacity used
by `gfc_list_new` (the spec fixes no particular value). -/
def GFC_LIST_DEFAULT_CAPACITY : Nat := 16

/-- Modelled from the spec (`gfc_list.c` is absent): `gfc_list_new_size`
allocates a container with logical count 0 and capacity `count`. -/
def gfc_list_new_size (count : Nat) : GfcList :=
  ⟨List.replicate count ⟨0⟩, 0⟩

/-- Modelled from the spec (`gfc_list.c` is absent): `gfc_list_new` allocates
an empty container with the implementation-defined default capacity. -/
def gfc_list_new : GfcList :=
  gfc_list_new_size GFC_LIST_DEFAULT_CAPACITY

/-- Modelled from the spec (`gfc_list.c` is absent): `gfc_list_copy` produces
a new container with the same count and the same sequence of reference values
(shallow copy: the data pointers are copied verbatim); it returns NULL when
`old` is NULL or holds no data. -/
def gfc_list_copy : Option GfcList → Option GfcList
  | none => none
  | some l =>
    if l.count = 0 then none
    else some ⟨l.elements.take l.count, l.count⟩

/-- Modelled from the spec (`gfc_list.c` is absent): `gfc_list_clear` resets
`count` to zero, retaining the backing storage and capacity; no-op on NULL. -/
def gfc_list_clear : Option GfcList → Option GfcList
  | none => none
  | some l => some ⟨l.elements, 0⟩

/-- Modelled from the spec (`gfc_list.c` is absent): `gfc_list_get_nth`
returns the reference stored at slot `n` when `n < count`, and the NULL/error
result otherwise (NULL list, or out-of-range index). -/
def gfc_list_get_nth : Option GfcList → Nat → Option Ptr
  | none, _ => none
  | some l, n =>
    if n < l.count then (l.elements[n]?).map ListElementData.data else none

/-- Modelled from the spec (`gfc_list.c` is absent): `gfc_list_set_nth`
overwrites the reference at slot `n` when `n < count`; out-of-range or NULL is
a logged no-op. -/
def gfc_list_set_nth : Option GfcList → Nat → Ptr → Option GfcList
  | none, _, _ => none
  | some l, n, data =>
    if n < l.count then some ⟨l.elements.set n ⟨data⟩, l.count⟩ else some l

/-- Modelled from the spec (`gfc_list.c` is absent): growth of the backing
storage when capacity is exhausted (a doubling strategy, here to `2*size + 1`
so that a zero-capacity container also grows); the stored reference values and
their order are preserved exactly, new slack slots are indeterminate
(modelled as `0`). -/
def gfc_list_expand (l : GfcList) : GfcList :=
  ⟨l.elements ++ List.replicate (l.elements.length + 1) ⟨0⟩, l.count⟩

/-- The growth step shared by the growing mutators: expand exactly when the
capacity is exhausted (`count == size`), else leave the storage alone. -/
def gfc_grown (l : GfcList) : GfcList :=
  if l.count = l.elements.length then gfc_list_expand l else l

/-- Modelled from the spec (`gfc_list.c` is absent): `gfc_list_append` grows
the storage if `count == size`, then writes `data` into slot `count` and
increments `count`.  Per the header note, the original list handle is what is
returned on success; NULL in, NULL out. -/
def gfc_list_append : Option GfcList → Ptr → Option GfcList
  | none, _ => none
  | some l, data =>
    some ⟨(gfc_grown l).elements.set (gfc_grown l).count ⟨data⟩,
          (gfc_grown l).count + 1⟩

/-- Modelled from the spec (`gfc_list.c` is absent): `gfc_list_insert` places
`data` at slot `n`, shifting the elements at `n..count` one position up, after
growing if needed; when `n ≥ count` it behaves exactly as append (documented
permissive behaviour, not an error).  The physical shift moves the tail up by
one inside the fixed-capacity storage (the model truncates back to the
capacity, slack contents being indeterminate anyway). -/
def gfc_list_insert : Option GfcList → Ptr → Nat → Option GfcList
  | none, _, _ => none
  | some l, data, n =>
    if l.count ≤ n then gfc_list_append (some l) data
    else
      some ⟨((gfc_grown l).elements.take n ++
               ⟨data⟩ :: (gfc_grown l).elements.drop n).take
              (gfc_grown l).elements.length,
            (gfc_grown l).count + 1⟩

/-- Modelled from the spec (`gfc_list.c` is absent): `gfc_list_prepend`
inserts `data` as the new first element, shifting every element one position
up; same growth semantics as append. -/
def gfc_list_prepend (list : Option GfcList) (data : Ptr) : Option GfcList :=
  gfc_list_insert list data 0

/-- Modelled from the spec (`gfc_list.c` is absent): `gfc_list_delete_nth`
removes slot `n`, shifting the subsequent occupied slots one position down and
decrementing `count`; returns `0` on success.  When `n ≥ count` (or the list
is NULL) it is a logged no-op returning `-1`.  The pair is (status code,
post-state); capacity is retained (one slack slot of indeterminate content is
left at the end of the storage). -/
def gfc_list_delete_nth : Option GfcList → Nat → Int × Option GfcList
  | none, _ => (-1, none)
  | some l, n =>
    if n < l.count then
      (0, some ⟨l.elements.take n ++ l.elements.drop (n + 1) ++ [⟨0⟩],
                l.count - 1⟩)
    else (-1, some l)

/-- Modelled from the spec (`gfc_list.c` is absent): `gfc_list_delete_last`
deletes the element at `count - 1`; error (`-1`) on an empty or NULL list. -/
def gfc_list_delete_last : Option GfcList → Int × Option GfcList
  | none => (-1, none)
  | some l =>
    if l.count = 0 then (-1, some l)
    else gfc_list_delete_nth (some l) (l.count - 1)

/-- Modelled from the spec (`gfc_list.c` is absent): the linear scan of the
occupied slots for the first one whose stored reference equals `data` by
identity. -/
def gfc_scan (data : Ptr) : List ListElementData → Option Nat
  | [] => none
  | e :: rest =>
    if e.data = data then some 0 else (gfc_scan data rest).map (· + 1)

/-- Modelled from the spec (`gfc_list.c` is absent):
`gfc_list_get_item_index` returns the index of the first occupied slot whose
reference equals `data` by identity, `-1` if not found or the list is NULL. -/
def gfc_list_get_item_index : Option GfcList → Ptr → Int
  | none, _ => -1
  | some l, data =>
    match gfc_scan data (l.elements.take l.count) with
    | none => -1
    | some i => (i : Int)

/-- Modelled from the spec (`gfc_list.c` is absent): `gfc_list_delete_data`
deletes the first occupied slot whose reference equals `data` by identity,
shifting subsequent elements left; `-1` when not found or the list is NULL;
at most one slot is removed per call even if duplicates exist. -/
def gfc_list_delete_data : Option GfcList → Ptr → Int × Option GfcList
  | none, _ => (-1, none)
  | some l, data =>
    match gfc_scan data (l.elements.take l.count) with
    | none => (-1, some l)
    | some i => gfc_list_delete_nth (some l) i

/-- Modelled from the spec (`gfc_list.c` is absent): `gfc_list_get_count`
returns the logical element count, `0` for a NULL list. -/
def gfc_list_get_count : Option GfcList → Nat
  | none => 0
  | some l => l.count

/-- Modelled from the spec (`gfc_list.c` is absent): `gfc_list_swap_indices`
exchanges the reference values stored at slots `a` and `b`; it is a no-op when
`a == b`, when either index is out of range, or on a NULL list. -/
def gfc_list_swap_indices : Option GfcList → Nat → Nat → Option GfcList
  | none, _, _ => none
  | some l, a, b =>
    if a = b then some l
    else if l.count ≤ a then some l
    else if l.count ≤ b then some l
    else
      some ⟨(l.elements.set a (l.elements.getD b ⟨0⟩)).set b
              (l.elements.getD a ⟨0⟩),
            l.count⟩

/-- Modelled from the spec (`gfc_list.c` is absent): `gfc_list_concat`
appends every reference of `b`, in index order, onto `a` (growing `a` as
needed); `b` is left intact (the model passes it by value, so this is
structural).  NULL if either argument is NULL. -/
def gfc_list_concat : Option GfcList → Option GfcList → Option GfcList
  | some la, some lb =>
    (lb.elements.take lb.count).foldl
      (fun acc e => gfc_list_append acc e.data) (some la)
  | _, _ => none

/-- Modelled from the spec (`gfc_list.c` is absent): `gfc_list_concat_free`
has the identical element-transfer effect as `gfc_list_concat`; additionally
the container header and storage of `b` are freed afterwards, which has no
observable effect on the value of the result. -/
def gfc_list_concat_free (a b : Option GfcList) : Option GfcList :=
  gfc_list_concat a b

/-- A machine-level view used only to state handle (pointer) identity facts:
a heap of container headers indexed by abstract addresses. -/
def GfcHeap := Nat → Option GfcList

/-- Modelled from the spec (`gfc_list.c` is absent): `gfc_list_append` at the
heap level.  Per the header note ("as of 2023, the original list is what is
returned on success"), the container header at the caller's handle `p` is
updated in place — only the internal element storage may be reallocated — and
that same handle is returned. -/
def gfc_heap_append (h : GfcHeap) (p : Nat) (v : Ptr) :
    Option (GfcHeap × Nat) :=
  match h p with
  | none => none
  | some l =>
    match gfc_list_append (some l) v with
    | none => none
    | some l2 => some (fun q => if q = p then some l2 else h q, p)

/-! ### Basic facts about the growth step -/

theorem gfc_grown_count (l : GfcList) : (gfc_grown l).count = l.count := by
  unfold gfc_grown gfc_list_expand
  split <;> rfl

theorem gfc_grown_length (l : GfcList) (h : gfc_inv l) :
    l.count < (gfc_grown l).elements.length := by
  unfold gfc_grown gfc_list_expand
  split
  · simp
    omega
  · omega

theorem gfc_grown_getElem (l : GfcList) (i : Nat) (hi : i < l.elements.length) :
    (gfc_grown l).elements[i]? = l.elements[i]? := by
  unfold gfc_grown gfc_list_expand
  split
  · exact List.getElem?_append_left hi
  · rfl

/-! ### Element-level characterisation of the mutators -/

theorem gfc_list_append_spec (l : GfcList) (v : Ptr) (h : gfc_inv l) :
    ∃ l2, gfc_list_append (some l) v = some l2 ∧ gfc_inv l2 ∧
      l2.count = l.count + 1 ∧
      l.count < l2.elements.length ∧
      (∀ i, i < l.count → l2.elements[i]? = l.elements[i]?) ∧
      l2.elements[l.count]? = some ⟨v⟩ := by
  have hlt := gfc_grown_length l h
  have hc := gfc_grown_count l
  refine ⟨⟨(gfc_grown l).elements.set (gfc_grown l).count ⟨v⟩,
           (gfc_grown l).count + 1⟩, rfl, ?_, by simp [hc], ?_, ?_, ?_⟩
  · show (gfc_grown l).count + 1 ≤ _
    simp [hc]
    omega
  · simp [hc]
    omega
  · intro i hi
    have hne : (gfc_grown l).count ≠ i := by omega
    rw [List.getElem?_set_ne hne]
    exact gfc_grown_getElem l i (lt_of_lt_of_le hi h)
  · rw [show l.count = (gfc_grown l).count from hc.symm]
    exact List.getElem?_set_self (by omega)

theorem gfc_list_insert_spec (l : GfcList) (v : Ptr) (n : Nat)
    (h : gfc_inv l) (hn : n < l.count) :
    ∃ l2, gfc_list_insert (some l) v n = some l2 ∧ gfc_inv l2 ∧
      l2.count = l.count + 1 ∧
      l2.elements[n]? = some ⟨v⟩ ∧
      (∀ i, i < n → l2.elements[i]? = l.elements[i]?) ∧
      (∀ i, n ≤ i → i < l.count → l2.elements[i + 1]? = l.elements[i]?) := by
  have hL := gfc_grown_length l h
  have hc := gfc_grown_count l
  set gl := (gfc_grown l).elements with hgl
  have hnL : n < gl.length := by omega
  have htake : (gl.take n).length = n := by
    rw [List.length_take]; omega
  refine ⟨⟨(gl.take n ++ ⟨v⟩ :: gl.drop n).take gl.length,
           (gfc_grown l).count + 1⟩, ?_, ?_, by rw [hc], ?_, ?_, ?_⟩
  · simp only [gfc_list_insert]
    rw [if_neg (Nat.not_le.mpr hn)]
  · show (gfc_grown l).count + 1 ≤ _
    rw [List.length_take]
    simp only [List.length_append, List.length_cons, List.length_drop, htake]
    omega
  · rw [List.getElem?_take_of_lt hnL,
        List.getElem?_append_right (le_of_eq htake), htake]
    simp
  · intro i hi
    have hiL : i < gl.length := by omega
    rw [List.getElem?_take_of_lt hiL,
        List.getElem?_append_left (by rw [htake]; omega),
        List.getElem?_take_of_lt hi]
    exact gfc_grown_getElem l i (by omega)
  · intro i hni hic
    have h1 : i + 1 < gl.length := by omega
    rw [List.getElem?_take_of_lt h1,
        List.getElem?_append_right (by rw [htake]; omega), htake]
    have h2 : i + 1 - n = (i - n) + 1 := by omega
    rw [h2, List.getElem?_cons_succ, List.getElem?_drop]
    have h3 : n + (i - n) = i := by omega
    rw [h3]
    exact gfc_grown_getElem l i (by omega)

theorem gfc_list_delete_nth_spec (l : GfcList) (n : Nat)
    (h : gfc_inv l) (hn : n < l.count) :
    ∃ l2, gfc_list_delete_nth (some l) n = (0, some l2) ∧ gfc_inv l2 ∧
      l2.count + 1 = l.count ∧
      l2.elements.length = l.elements.length ∧
      (∀ i, i < n → l2.elements[i]? = l.elements[i]?) ∧
      (∀ i, n < i → i < l.count → l2.elements[i - 1]? = l.elements[i]?) := by
  have hnL : n < l.elements.length := by omega
  have htake : (l.elements.take n).length = n := by
    rw [List.length_take]; omega
  have hdrop : (l.elements.drop (n + 1)).length = l.elements.length - (n + 1) :=
    List.length_drop _ _
  have hfst : (l.elements.take n ++ l.elements.drop (n + 1)).length =
      l.elements.length - 1 := by
    rw [List.length_append, htake, hdrop]; omega
  refine ⟨⟨l.elements.take n ++ l.elements.drop (n + 1) ++ [⟨0⟩],
           l.count - 1⟩, ?_, ?_, ?_, ?_, ?_, ?_⟩
  · simp only [gfc_list_delete_nth]
    rw [if_pos hn]
  · show l.count - 1 ≤ _
    simp only [List.length_append, htake, hdrop, List.length_cons,
      List.length_nil]
    omega
  · show l.count - 1 + 1 = l.count
    omega
  · show (l.elements.take n ++ l.elements.drop (n + 1) ++
        [(⟨0⟩ : ListElementData)]).length = _
    simp only [List.length_append, htake, hdrop, List.length_cons,
      List.length_nil]
    omega
  · intro i hi
    rw [List.getElem?_append_left (by rw [hfst]; omega),
        List.getElem?_append_left (by rw [htake]; omega),
        List.getElem?_take_of_lt hi]
  · intro i hni hic
    rw [List.getElem?_append_left (by rw [hfst]; omega),
        List.getElem?_append_right (by rw [htake]; omega), htake,
        List.getElem?_drop]
    have h3 : n + 1 + (i - 1 - n) = i := by omega
    rw [h3]

theorem gfc_list_get_nth_lt (l : GfcList) (n : Nat) (hn : n < l.count) :
    gfc_list_get_nth (some l) n = (l.elements[n]?).map ListElementData.data := by
  simp only [gfc_list_get_nth]
  rw [if_pos hn]

theorem gfc_list_get_nth_ge (l : GfcList) (n : Nat) (hn : l.count ≤ n) :
    gfc_list_get_nth (some l) n = none := by
  simp only [gfc_list_get_nth]
  rw [if_neg (Nat.not_lt.mpr hn)]

/-! ### The linear scan -/

theorem gfc_scan_none (v : Ptr) (xs : List ListElementData)
    (h : ∀ i, i < xs.length → (xs[i]?).map ListElementData.data ≠ some v) :
    gfc_scan v xs = none := by
  induction xs with
  | nil => rfl
  | cons e rest ih =>
    have h0 := h 0 (by simp)
    simp at h0
    have he : e.data ≠ v := h0
    simp only [gfc_scan, if_neg he]
    rw [ih ?_]
    · rfl
    · intro i hi
      have := h (i + 1) (by simpa using Nat.succ_lt_succ hi)
      simpa using this

theorem gfc_scan_first (v : Ptr) (xs : List ListElementData) (j : Nat)
    (hj : (xs[j]?).map ListElementData.data = some v)
    (hmin : ∀ i, i < j → (xs[i]?).map ListElementData.data ≠ some v) :
    gfc_scan v xs = some j := by
  induction xs generalizing j with
  | nil => simp at hj
  | cons e rest ih =>
    cases j with
    | zero =>
      simp at hj
      simp [gfc_scan, hj]
    | succ j =>
      have h0 := hmin 0 (Nat.succ_pos j)
      simp at h0
      have he : e.data ≠ v := h0
      simp only [List.getElem?_cons_succ] at hj
      have hrest := ih j hj (fun i hi => by
        have := hmin (i + 1) (Nat.succ_lt_succ hi)
        simpa using this)
      simp [gfc_scan, if_neg he, hrest]

/-! ### Folding appends (the concat loop) -/

theorem gfc_fold_append_spec (xs : List ListElementData) :
    ∀ l : GfcList, gfc_inv l →
    ∃ l2, xs.foldl (fun acc e => gfc_list_append acc e.data) (some l) =
        some l2 ∧
      gfc_inv l2 ∧ l2.count = l.count + xs.length ∧
      (∀ i, i < l.count → l2.elements[i]? = l.elements[i]?) ∧
      (∀ i, i < xs.length → l2.elements[l.count + i]? = xs[i]?) := by
  induction xs with
  | nil =>
    intro l h
    exact ⟨l, rfl, h, by simp, fun i _ => rfl,
      fun i hi => absurd hi (Nat.not_lt_zero i)⟩
  | cons e rest ih =>
    intro l h
    obtain ⟨l1, heq1, hinv1, hcnt1, hlen1, hpres1, hlast1⟩ :=
      gfc_list_append_spec l e.data h
    obtain ⟨l2, heq2, hinv2, hcnt2, hpres2, hnew2⟩ := ih l1 hinv1
    refine ⟨l2, ?_, hinv2, ?_, ?_, ?_⟩
    · rw [List.foldl_cons, heq1, heq2]
    · rw [hcnt2, hcnt1]
      simp
      omega
    · intro i hi
      rw [hpres2 i (by omega), hpres1 i hi]
    · intro i hi
      cases i with
      | zero =>
        rw [Nat.add_zero, hpres2 l.count (by omega), hlast1,
          List.getElem?_cons_zero]
      | succ j =>
        have hj : j < rest.length := by simpa using hi
        have harith : l.count + (j + 1) = l1.count + j := by omega
        rw [harith, hnew2 j hj, List.getElem?_cons_succ]

/-! ### Invariant preservation helpers -/

theorem gfc_inv_append (l : GfcList) (v : Ptr) (h : gfc_inv l) :
    gfc_inv_opt (gfc_list_append (some l) v) := by
  obtain ⟨l2, heq, hinv, _⟩ := gfc_list_append_spec l v h
  rw [heq]
  exact hinv

theorem gfc_inv_insert (l : GfcList) (v : Ptr) (n : Nat) (h : gfc_inv l) :
    gfc_inv_opt (gfc_list_insert (some l) v n) := by
  by_cases hn : l.count ≤ n
  · simp only [gfc_list_insert, if_pos hn]
    exact gfc_inv_append l v h
  · obtain ⟨l2, heq, hinv, _⟩ :=
      gfc_list_insert_spec l v n h (Nat.not_le.mp hn)
    rw [heq]
    exact hinv

theorem gfc_inv_delete_nth (l : GfcList) (n : Nat) (h : gfc_inv l) :
    gfc_inv_opt (gfc_list_delete_nth (some l) n).2 := by
  by_cases hn : n < l.count
  · obtain ⟨l2, heq, hinv, _⟩ := gfc_list_delete_nth_spec l n h hn
    rw [heq]
    exact hinv
  · simp only [gfc_list_delete_nth, if_neg hn]
    exact h

/-! ### Concrete example containers used by the witnesses -/

def gfcEx1 : GfcList := ⟨[⟨4⟩, ⟨9⟩, ⟨0⟩], 2⟩

def gfcEx2 : GfcList := ⟨[⟨5⟩, ⟨6⟩], 2⟩

/-- C2: for every non-null list satisfying the container invariant and every
value, a (always successful) `gfc_list_append` of that value makes the element
at index `count - 1` of the new state exactly the appended value, makes the
count exactly one greater than before, and keeps every previously present
element at its index with its value. -/
theorem gfc_list_append_correct (l : GfcList) (v : Ptr) (h : gfc_inv l) :
    ∃ l2, gfc_list_append (some l) v = some l2 ∧
      l2.count = l.count + 1 ∧
      gfc_list_get_nth (some l2) (l2.count - 1) = some v ∧
      ∀ i, i < l.count →
        gfc_list_get_nth (some l2) i = gfc_list_get_nth (some l) i := by
  obtain ⟨l2, heq, hinv, hcnt, hlen, hpres, hlast⟩ := gfc_list_append_spec l v h
  refine ⟨l2, heq, hcnt, ?_, ?_⟩
  · rw [hcnt, Nat.add_sub_cancel, gfc_list_get_nth_lt l2 l.count (by omega),
      hlast]
    rfl
  · intro i hi
    rw [gfc_list_get_nth_lt l2 i (by omega), gfc_list_get_nth_lt l i hi,
      hpres i hi]

/-- Witness: the append claim applied to a concrete two-element container. -/
theorem gfc_list_append_correct_witness :
    gfc_inv gfcEx1 ∧
    ∃ l2, gfc_list_append (some gfcEx1) 7 = some l2 ∧
      l2.count = gfcEx1.count + 1 ∧
      gfc_list_get_nth (some l2) (l2.count - 1) = some 7 ∧
      ∀ i, i < gfcEx1.count →
        gfc_list_get_nth (some l2) i = gfc_list_get_nth (some gfcEx1) i :=
  ⟨by decide, gfc_list_append_correct gfcEx1 7 (by decide)⟩

/-- C3: for every non-null list satisfying the invariant, value `v` and index
`k ≤ count`, `gfc_list_insert` places `v` at index `k`, moves every element
previously at an index `≥ k` to its old index plus one, leaves elements below
`k` unchanged, and increments the count; when `k ≥ count` the operation is
definitionally the same call as append (not an error). -/
theorem gfc_list_insert_correct (l : GfcList) (v : Ptr) (k : Nat)
    (h : gfc_inv l) :
    (k ≤ l.count →
      ∃ l2, gfc_list_insert (some l) v k = some l2 ∧
        l2.count = l.count + 1 ∧
        gfc_list_get_nth (some l2) k = some v ∧
        (∀ i, i < k →
          gfc_list_get_nth (some l2) i = gfc_list_get_nth (some l) i) ∧
        (∀ i, k ≤ i → i < l.count →
          gfc_list_get_nth (some l2) (i + 1) = gfc_list_get_nth (some l) i)) ∧
    (l.count ≤ k →
      gfc_list_insert (some l) v k = gfc_list_append (some l) v) := by
  constructor
  · intro hk
    rcases Nat.lt_or_ge k l.count with hlt | hge
    · obtain ⟨l2, heq, hinv, hcnt, hat, hbelow, habove⟩ :=
        gfc_list_insert_spec l v k h hlt
      refine ⟨l2, heq, hcnt, ?_, ?_, ?_⟩
      · rw [gfc_list_get_nth_lt l2 k (by omega), hat]
        rfl
      · intro i hi
        rw [gfc_list_get_nth_lt l2 i (by omega),
          gfc_list_get_nth_lt l i (by omega), hbelow i hi]
      · intro i hki hic
        rw [gfc_list_get_nth_lt l2 (i + 1) (by omega),
          gfc_list_get_nth_lt l i hic, habove i hki hic]
    · have hke : k = l.count := by omega
      obtain ⟨l2, heq, hinv, hcnt, hlen, hpres, hlast⟩ :=
        gfc_list_append_spec l v h
      refine ⟨l2, ?_, hcnt, ?_, ?_, ?_⟩
      · simp only [gfc_list_insert, if_pos hge]
        exact heq
      · rw [hke, gfc_list_get_nth_lt l2 l.count (by omega), hlast]
        rfl
      · intro i hi
        rw [gfc_list_get_nth_lt l2 i (by omega),
          gfc_list_get_nth_lt l i (by omega), hpres i (by omega)]
      · intro i hki hic
        omega
  · intro hk
    simp only [gfc_list_insert, if_pos hk]

/-- Witness: the insert claim applied to a concrete container at index 1. -/
theorem gfc_list_insert_correct_witness :
    gfc_inv gfcEx1 ∧
    ((1 ≤ gfcEx1.count →
      ∃ l2, gfc_list_insert (some gfcEx1) 7 1 = some l2 ∧
        l2.count = gfcEx1.count + 1 ∧
        gfc_list_get_nth (some l2) 1 = some 7 ∧
        (∀ i, i < 1 →
          gfc_list_get_nth (some l2) i = gfc_list_get_nth (some gfcEx1) i) ∧
        (∀ i, 1 ≤ i → i < gfcEx1.count →
          gfc_list_get_nth (some l2) (i + 1) =
            gfc_list_get_nth (some gfcEx1) i)) ∧
    (gfcEx1.count ≤ 1 →
      gfc_list_insert (some gfcEx1) 7 1 = gfc_list_append (some gfcEx1) 7)) :=
  ⟨by decide, gfc_list_insert_correct gfcEx1 7 1 (by decide)⟩

/-- C4: for every non-null list satisfying the invariant and index `k < count`,
`gfc_list_delete_nth` returns the success code 0, decrements the count by
exactly one, keeps elements below `k` in place and moves every element
previously at an index `> k` to its old index minus one; for `k ≥ count` it
returns the error code -1 and leaves the container completely unchanged. -/
theorem gfc_list_delete_nth_correct (l : GfcList) (k : Nat) (h : gfc_inv l) :
    (k < l.count →
      ∃ l2, gfc_list_delete_nth (some l) k = (0, some l2) ∧
        l2.count + 1 = l.count ∧
        (∀ i, i < k →
          gfc_list_get_nth (some l2) i = gfc_list_get_nth (some l) i) ∧
        (∀ i, k < i → i < l.count →
          gfc_list_get_nth (some l2) (i - 1) =
            gfc_list_get_nth (some l) i)) ∧
    (l.count ≤ k → gfc_list_delete_nth (some l) k = (-1, some l)) := by
  constructor
  · intro hk
    obtain ⟨l2, heq, hinv, hcnt, hlen, hbelow, habove⟩ :=
      gfc_list_delete_nth_spec l k h hk
    refine ⟨l2, heq, hcnt, ?_, ?_⟩
    · intro i hi
      rw [gfc_list_get_nth_lt l2 i (by omega),
        gfc_list_get_nth_lt l i (by omega), hbelow i hi]
    · intro i hki hic
      rw [gfc_list_get_nth_lt l2 (i - 1) (by omega),
        gfc_list_get_nth_lt l i hic, habove i hki hic]
  · intro hk
    simp only [gfc_list_delete_nth, if_neg (Nat.not_lt.mpr hk)]

/-- Witness: the delete claim applied to a concrete container at index 0. -/
theorem gfc_list_delete_nth_correct_witness :
    gfc_inv gfcEx1 ∧
    ((0 < gfcEx1.count →
      ∃ l2, gfc_list_delete_nth (some gfcEx1) 0 = (0, some l2) ∧
        l2.count + 1 = gfcEx1.count ∧
        (∀ i, i < 0 →
          gfc_list_get_nth (some l2) i = gfc_list_get_nth (some gfcEx1) i) ∧
        (∀ i, 0 < i → i < gfcEx1.count →
          gfc_list_get_nth (some l2) (i - 1) =
            gfc_list_get_nth (some gfcEx1) i)) ∧
    (gfcEx1.count ≤ 0 →
      gfc_list_delete_nth (some gfcEx1) 0 = (-1, some gfcEx1))) :=
  ⟨by decide, gfc_list_delete_nth_correct gfcEx1 0 (by decide)⟩

/-- C8: `gfc_list_get_nth` on a NULL list yields the error result; on a
non-null list satisfying the invariant the error result is returned if and
only if `n ≥ count`, and whenever `n < count` the call returns exactly the
stored reference at slot `n`. -/
theorem gfc_list_get_nth_correct (l : GfcList) (n : Nat) (h : gfc_inv l) :
    gfc_list_get_nth none n = none ∧
    (gfc_list_get_nth (some l) n = none ↔ l.count ≤ n) ∧
    ∀ hn : n < l.count, ∃ hlen : n < l.elements.length,
      gfc_list_get_nth (some l) n = some (l.elements.get ⟨n, hlen⟩).data := by
  refine ⟨rfl, ?_, ?_⟩
  · constructor
    · intro hnone
      by_contra hcon
      have hn : n < l.count := Nat.not_le.mp hcon
      rw [gfc_list_get_nth_lt l n hn,
        List.getElem?_eq_getElem (by omega)] at hnone
      simp at hnone
    · exact gfc_list_get_nth_ge l n
  · intro hn
    refine ⟨by omega, ?_⟩
    rw [gfc_list_get_nth_lt l n hn, List.getElem?_eq_getElem (by omega)]
    rfl

/-- Witness: the get claim applied to a concrete container at index 1. -/
theorem gfc_list_get_nth_correct_witness :
    gfc_inv gfcEx1 ∧
    (gfc_list_get_nth none 1 = none ∧
    (gfc_list_get_nth (some gfcEx1) 1 = none ↔ gfcEx1.count ≤ 1) ∧
    ∀ hn : 1 < gfcEx1.count, ∃ hlen : 1 < gfcEx1.elements.length,
      gfc_list_get_nth (some gfcEx1) 1 =
        some (gfcEx1.elements.get ⟨1, hlen⟩).data) :=
  ⟨by decide, gfc_list_get_nth_correct gfcEx1 1 (by decide)⟩

/-- C6: for every non-null, non-empty source list satisfying the invariant,
`gfc_list_copy` returns a new container with the same count whose element at
every valid index is reference-equal to the source's element there (the data
pointers are copied, nothing is duplicated); it returns NULL when the source
is NULL or empty. -/
theorem gfc_list_copy_correct (l : GfcList) (h : gfc_inv l) :
    gfc_list_copy none = none ∧
    (l.count = 0 → gfc_list_copy (some l) = none) ∧
    (l.count ≠ 0 →
      ∃ c, gfc_list_copy (some l) = some c ∧
        c.count = l.count ∧
        ∀ i, i < l.count →
          gfc_list_get_nth (some c) i = gfc_list_get_nth (some l) i) := by
  refine ⟨rfl, ?_, ?_⟩
  · intro h0
    simp only [gfc_list_copy, if_pos h0]
  · intro h0
    refine ⟨⟨l.elements.take l.count, l.count⟩, ?_, rfl, ?_⟩
    · simp only [gfc_list_copy, if_neg h0]
    · intro i hi
      rw [gfc_list_get_nth_lt l i hi,
        gfc_list_get_nth_lt ⟨l.elements.take l.count, l.count⟩ i hi]
      show ((l.elements.take l.count)[i]?).map _ = _
      rw [List.getElem?_take_of_lt hi]

/-- Witness: the copy claim applied to a concrete two-element container. -/
theorem gfc_list_copy_correct_witness :
    gfc_inv gfcEx1 ∧
    (gfc_list_copy none = none ∧
    (gfcEx1.count = 0 → gfc_list_copy (some gfcEx1) = none) ∧
    (gfcEx1.count ≠ 0 →
      ∃ c, gfc_list_copy (some gfcEx1) = some c ∧
        c.count = gfcEx1.count ∧
        ∀ i, i < gfcEx1.count →
          gfc_list_get_nth (some c) i = gfc_list_get_nth (some gfcEx1) i)) :=
  ⟨by decide, gfc_list_copy_correct gfcEx1 (by decide)⟩

/-- C9: `gfc_list_swap_indices` leaves the container entirely unchanged when
the two indices coincide or either one is out of range; when they differ and
both are in range it exchanges exactly the two stored reference values,
leaving every other slot, the count, and the capacity unchanged. -/
theorem gfc_list_swap_indices_correct (l : GfcList) (a b : Nat)
    (h : gfc_inv l) :
    (a = b → gfc_list_swap_indices (some l) a b = some l) ∧
    (l.count ≤ a → gfc_list_swap_indices (some l) a b = some l) ∧
    (l.count ≤ b → gfc_list_swap_indices (some l) a b = some l) ∧
    (a ≠ b → a < l.count → b < l.count →
      ∃ l2, gfc_list_swap_indices (some l) a b = some l2 ∧
        l2.count = l.count ∧ l2.elements.length = l.elements.length ∧
        gfc_list_get_nth (some l2) a = gfc_list_get_nth (some l) b ∧
        gfc_list_get_nth (some l2) b = gfc_list_get_nth (some l) a ∧
        ∀ i, i ≠ a → i ≠ b → l2.elements[i]? = l.elements[i]?) := by
  refine ⟨?_, ?_, ?_, ?_⟩
  · intro hab
    simp only [gfc_list_swap_indices, if_pos hab]
  · intro hca
    by_cases hab : a = b
    · simp only [gfc_list_swap_indices, if_pos hab]
    · simp only [gfc_list_swap_indices, if_neg hab, if_pos hca]
  · intro hcb
    by_cases hab : a = b
    · simp only [gfc_list_swap_indices, if_pos hab]
    · by_cases hca : l.count ≤ a
      · simp only [gfc_list_swap_indices, if_neg hab, if_pos hca]
      · simp only [gfc_list_swap_indices, if_neg hab, if_neg hca, if_pos hcb]
  · intro hab ha hbe
    have haL : a < l.elements.length := by omega
    have hbL : b < l.elements.length := by omega
    have hga : l.elements.getD a ⟨0⟩ = l.elements[a] := by
      rw [List.getD_eq_getElem?_getD, List.getElem?_eq_getElem haL]
      rfl
    have hgb : l.elements.getD b ⟨0⟩ = l.elements[b] := by
      rw [List.getD_eq_getElem?_getD, List.getElem?_eq_getElem hbL]
      rfl
    refine ⟨⟨(l.elements.set a (l.elements.getD b ⟨0⟩)).set b
              (l.elements.getD a ⟨0⟩), l.count⟩, ?_, rfl, by simp, ?_, ?_, ?_⟩
    · simp only [gfc_list_swap_indices]
      rw [if_neg hab, if_neg (Nat.not_le.mpr ha), if_neg (Nat.not_le.mpr hbe)]
    · rw [gfc_list_get_nth_lt l b hbe,
        gfc_list_get_nth_lt ⟨(l.elements.set a (l.elements.getD b ⟨0⟩)).set b
          (l.elements.getD a ⟨0⟩), l.count⟩ a ha]
      show (((l.elements.set a _).set b _)[a]?).map _ = _
      rw [List.getElem?_set_ne (Ne.symm hab), List.getElem?_set_self haL,
        hgb, List.getElem?_eq_getElem hbL]
    · rw [gfc_list_get_nth_lt l a ha,
        gfc_list_get_nth_lt ⟨(l.elements.set a (l.elements.getD b ⟨0⟩)).set b
          (l.elements.getD a ⟨0⟩), l.count⟩ b hbe]
      show (((l.elements.set a _).set b _)[b]?).map _ = _
      rw [List.getElem?_set_self (by simpa using hbL), hga,
        List.getElem?_eq_getElem haL]
    · intro i hia hib
      show ((l.elements.set a _).set b _)[i]? = _
      rw [List.getElem?_set_ne (Ne.symm hib), List.getElem?_set_ne
        (Ne.symm hia)]

/-- Witness: the swap claim applied to a concrete container at indices 0, 1. -/
theorem gfc_list_swap_indices_correct_witness :
    gfc_inv gfcEx1 ∧
    ((0 = 1 → gfc_list_swap_indices (some gfcEx1) 0 1 = some gfcEx1) ∧
    (gfcEx1.count ≤ 0 → gfc_list_swap_indices (some gfcEx1) 0 1 = some gfcEx1) ∧
    (gfcEx1.count ≤ 1 → gfc_list_swap_indices (some gfcEx1) 0 1 = some gfcEx1) ∧
    (0 ≠ 1 → 0 < gfcEx1.count → 1 < gfcEx1.count →
      ∃ l2, gfc_list_swap_indices (some gfcEx1) 0 1 = some l2 ∧
        l2.count = gfcEx1.count ∧
        l2.elements.length = gfcEx1.elements.length ∧
        gfc_list_get_nth (some l2) 0 = gfc_list_get_nth (some gfcEx1) 1 ∧
        gfc_list_get_nth (some l2) 1 = gfc_list_get_nth (some gfcEx1) 0 ∧
        ∀ i, i ≠ 0 → i ≠ 1 → l2.elements[i]? = gfcEx1.elements[i]?)) :=
  ⟨by decide, gfc_list_swap_indices_correct gfcEx1 0 1 (by decide)⟩

/-- C5: for all non-null lists `a` and `b` satisfying the invariant,
`gfc_list_concat` succeeds and the result's count is `a.count + b.count`, its
first `a.count` elements are `a`'s old elements unchanged, and the element at
index `a.count + i` is `b`'s element at `i` for every `i < b.count`.  (`b` is
passed and kept by value in the embedding, so it is structurally
unmodified.) -/
theorem gfc_list_concat_correct (a b : GfcList) (ha : gfc_inv a)
    (hb : gfc_inv b) :
    ∃ l2, gfc_list_concat (some a) (some b) = some l2 ∧
      l2.count = a.count + b.count ∧
      (∀ i, i < a.count →
        gfc_list_get_nth (some l2) i = gfc_list_get_nth (some a) i) ∧
      (∀ i, i < b.count →
        gfc_list_get_nth (some l2) (a.count + i) =
          gfc_list_get_nth (some b) i) := by
  have hlen : (b.elements.take b.count).length = b.count := by
    rw [List.length_take]; omega
  obtain ⟨l2, heq, hinv, hcnt, hpres, hnew⟩ :=
    gfc_fold_append_spec (b.elements.take b.count) a ha
  rw [hlen] at hcnt
  refine ⟨l2, ?_, hcnt, ?_, ?_⟩
  · simp only [gfc_list_concat]
    exact heq
  · intro i hi
    rw [gfc_list_get_nth_lt l2 i (by omega), gfc_list_get_nth_lt a i hi,
      hpres i hi]
  · intro i hi
    have hx := hnew i (by omega)
    rw [List.getElem?_take_of_lt hi] at hx
    rw [gfc_list_get_nth_lt l2 (a.count + i) (by omega),
      gfc_list_get_nth_lt b i hi, hx]

/-- Witness: the concat claim applied to two concrete containers. -/
theorem gfc_list_concat_correct_witness :
    gfc_inv gfcEx1 ∧ gfc_inv gfcEx2 ∧
    (∃ l2, gfc_list_concat (some gfcEx1) (some gfcEx2) = some l2 ∧
      l2.count = gfcEx1.count + gfcEx2.count ∧
      (∀ i, i < gfcEx1.count →
        gfc_list_get_nth (some l2) i = gfc_list_get_nth (some gfcEx1) i) ∧
      (∀ i, i < gfcEx2.count →
        gfc_list_get_nth (some l2) (gfcEx1.count + i) =
          gfc_list_get_nth (some gfcEx2) i)) :=
  ⟨by decide, by decide, gfc_list_concat_correct gfcEx1 gfcEx2 (by decide)
    (by decide)⟩

/-- C7: `gfc_list_delete_data` on a NULL list is an error; when no occupied
slot stores a reference identity-equal to the value it returns the error code
and leaves the list unchanged; when index `j` holds the first occurrence of
the value it removes exactly that slot (success code 0, count decremented by
one, earlier elements in place, later elements shifted left by one) — even
when the value occurs multiple times.  On the concrete sequence {A,B,A}
(A = 1, B = 2) deleting A yields {B,A}. -/
theorem gfc_list_delete_data_correct (l : GfcList) (v : Ptr) (j : Nat)
    (h : gfc_inv l) :
    gfc_list_delete_data none v = (-1, none) ∧
    ((∀ i, i < l.count → gfc_list_get_nth (some l) i ≠ some v) →
      gfc_list_delete_data (some l) v = (-1, some l)) ∧
    (j < l.count → gfc_list_get_nth (some l) j = some v →
      (∀ i, i < j → gfc_list_get_nth (some l) i ≠ some v) →
      ∃ l2, gfc_list_delete_data (some l) v = (0, some l2) ∧
        l2.count + 1 = l.count ∧
        (∀ i, i < j →
          gfc_list_get_nth (some l2) i = gfc_list_get_nth (some l) i) ∧
        (∀ i, j < i → i < l.count →
          gfc_list_get_nth (some l2) (i - 1) =
            gfc_list_get_nth (some l) i)) ∧
    gfc_list_delete_data (some ⟨[⟨1⟩, ⟨2⟩, ⟨1⟩], 3⟩) 1 =
      (0, some ⟨[⟨2⟩, ⟨1⟩, ⟨0⟩], 2⟩) := by
  refine ⟨rfl, ?_, ?_, by rfl⟩
  · intro hnone
    have hscan : gfc_scan v (l.elements.take l.count) = none := by
      apply gfc_scan_none
      intro i hi
      have hic : i < l.count := by
        rw [List.length_take] at hi; omega
      rw [List.getElem?_take_of_lt hic]
      have hx := hnone i hic
      rw [gfc_list_get_nth_lt l i hic] at hx
      exact hx
    simp only [gfc_list_delete_data, hscan]
  · intro hj hat hmin
    have hscan : gfc_scan v (l.elements.take l.count) = some j := by
      apply gfc_scan_first
      · rw [List.getElem?_take_of_lt hj]
        rw [gfc_list_get_nth_lt l j hj] at hat
        exact hat
      · intro i hi
        have hic : i < l.count := by omega
        rw [List.getElem?_take_of_lt hic]
        have hx := hmin i hi
        rw [gfc_list_get_nth_lt l i hic] at hx
        exact hx
    obtain ⟨l2, heq, hinv, hcnt, hlen, hbelow, habove⟩ :=
      gfc_list_delete_nth_spec l j h hj
    refine ⟨l2, ?_, hcnt, ?_, ?_⟩
    · simp only [gfc_list_delete_data, hscan]
      exact heq
    · intro i hi
      rw [gfc_list_get_nth_lt l2 i (by omega),
        gfc_list_get_nth_lt l i (by omega), hbelow i hi]
    · intro i hji hic
      rw [gfc_list_get_nth_lt l2 (i - 1) (by omega),
        gfc_list_get_nth_lt l i hic, habove i hji hic]

/-- Witness: the delete-by-value claim applied to a concrete container whose
first slot holds the searched value. -/
theorem gfc_list_delete_data_correct_witness :
    gfc_inv gfcEx1 ∧
    (gfc_list_delete_data none 4 = (-1, none) ∧
    ((∀ i, i < gfcEx1.count → gfc_list_get_nth (some gfcEx1) i ≠ some 4) →
      gfc_list_delete_data (some gfcEx1) 4 = (-1, some gfcEx1)) ∧
    (0 < gfcEx1.count → gfc_list_get_nth (some gfcEx1) 0 = some 4 →
      (∀ i, i < 0 → gfc_list_get_nth (some gfcEx1) i ≠ some 4) →
      ∃ l2, gfc_list_delete_data (some gfcEx1) 4 = (0, some l2) ∧
        l2.count + 1 = gfcEx1.count ∧
        (∀ i, i < 0 →
          gfc_list_get_nth (some l2) i = gfc_list_get_nth (some gfcEx1) i) ∧
        (∀ i, 0 < i → i < gfcEx1.count →
          gfc_list_get_nth (some l2) (i - 1) =
            gfc_list_get_nth (some gfcEx1) i)) ∧
    gfc_list_delete_data (some ⟨[⟨1⟩, ⟨2⟩, ⟨1⟩], 3⟩) 1 =
      (0, some ⟨[⟨2⟩, ⟨1⟩, ⟨0⟩], 2⟩)) :=
  ⟨by decide, gfc_list_delete_data_correct gfcEx1 4 0 (by decide)⟩

/-- C1: starting from any container satisfying `count ≤ size` (and any second
such container for the concat operations), every public operation of the
interface yields containers that still satisfy it — construction (`new`,
`new_size`), `copy`, `clear`, `set`, the growth-path mutators (`append`,
`prepend`, `insert`), the shrink-path mutators (`delete_nth`, `delete_last`,
`delete_data`), `swap_indices` and both concat variants — and the occupied
slots (those `get_nth` succeeds on) are exactly the contiguous prefix
`[0, count)`.  (`get_nth`, `get_count`, `get_item_index` and the traversals do
not produce a container, so preservation is vacuous for them.) -/
theorem gfc_list_invariant_preserved (l b : GfcList) (v : Ptr) (n a c : Nat)
    (h : gfc_inv l) (hb : gfc_inv b) :
    gfc_inv gfc_list_new ∧
    gfc_inv (gfc_list_new_size n) ∧
    gfc_inv_opt (gfc_list_copy (some l)) ∧
    gfc_inv_opt (gfc_list_clear (some l)) ∧
    gfc_inv_opt (gfc_list_set_nth (some l) n v) ∧
    gfc_inv_opt (gfc_list_append (some l) v) ∧
    gfc_inv_opt (gfc_list_prepend (some l) v) ∧
    gfc_inv_opt (gfc_list_insert (some l) v n) ∧
    gfc_inv_opt (gfc_list_delete_nth (some l) n).2 ∧
    gfc_inv_opt (gfc_list_delete_last (some l)).2 ∧
    gfc_inv_opt (gfc_list_delete_data (some l) v).2 ∧
    gfc_inv_opt (gfc_list_swap_indices (some l) a c) ∧
    gfc_inv_opt (gfc_list_concat (some l) (some b)) ∧
    gfc_inv_opt (gfc_list_concat_free (some l) (some b)) ∧
    (∀ i, (gfc_list_get_nth (some l) i).isSome ↔ i < l.count) := by
  have hconcat : gfc_inv_opt (gfc_list_concat (some l) (some b)) := by
    obtain ⟨l2, heq, hinv, _⟩ :=
      gfc_fold_append_spec (b.elements.take b.count) l h
    simp only [gfc_list_concat]
    rw [heq]
    exact hinv
  refine ⟨by decide, by simp [gfc_list_new_size], ?_, ?_, ?_,
    gfc_inv_append l v h, gfc_inv_insert l v 0 h, gfc_inv_insert l v n h,
    gfc_inv_delete_nth l n h, ?_, ?_, ?_, hconcat, hconcat, ?_⟩
  · by_cases h0 : l.count = 0
    · simp only [gfc_list_copy, if_pos h0]
      trivial
    · simp only [gfc_list_copy, if_neg h0]
      show l.count ≤ _
      rw [List.length_take]
      omega
  · show (0 : Nat) ≤ l.elements.length
    exact Nat.zero_le _
  · by_cases hn : n < l.count
    · simp only [gfc_list_set_nth, if_pos hn]
      show l.count ≤ _
      rw [List.length_set]
      exact h
    · simp only [gfc_list_set_nth, if_neg hn]
      exact h
  · by_cases h0 : l.count = 0
    · simp only [gfc_list_delete_last, if_pos h0]
      exact h
    · simp only [gfc_list_delete_last, if_neg h0]
      exact gfc_inv_delete_nth l (l.count - 1) h
  · cases hscan : gfc_scan v (l.elements.take l.count) with
    | none =>
      simp only [gfc_list_delete_data, hscan]
      exact h
    | some i =>
      simp only [gfc_list_delete_data, hscan]
      exact gfc_inv_delete_nth l i h
  · by_cases hac : a = c
    · simp only [gfc_list_swap_indices, if_pos hac]
      exact h
    · by_cases hca : l.count ≤ a
      · simp only [gfc_list_swap_indices, if_neg hac, if_pos hca]
        exact h
      · by_cases hcc : l.count ≤ c
        · simp only [gfc_list_swap_indices, if_neg hac, if_neg hca,
            if_pos hcc]
          exact h
        · simp only [gfc_list_swap_indices, if_neg hac, if_neg hca,
            if_neg hcc]
          show l.count ≤ _
          simp only [List.length_set]
          exact h
  · intro i
    by_cases hi : i < l.count
    · rw [gfc_list_get_nth_lt l i hi, List.getElem?_eq_getElem (by omega)]
      simp [hi]
    · rw [gfc_list_get_nth_ge l i (by omega)]
      simp [hi]

/-- Witness: the invariant-preservation claim applied to two concrete
containers and concrete arguments. -/
theorem gfc_list_invariant_preserved_witness :
    gfc_inv gfcEx1 ∧ gfc_inv gfcEx2 ∧
    (gfc_inv gfc_list_new ∧
    gfc_inv (gfc_list_new_size 1) ∧
    gfc_inv_opt (gfc_list_copy (some gfcEx1)) ∧
    gfc_inv_opt (gfc_list_clear (some gfcEx1)) ∧
    gfc_inv_opt (gfc_list_set_nth (some gfcEx1) 1 3) ∧
    gfc_inv_opt (gfc_list_append (some gfcEx1) 3) ∧
    gfc_inv_opt (gfc_list_prepend (some gfcEx1) 3) ∧
    gfc_inv_opt (gfc_list_insert (some gfcEx1) 3 1) ∧
    gfc_inv_opt (gfc_list_delete_nth (some gfcEx1) 1).2 ∧
    gfc_inv_opt (gfc_list_delete_last (some gfcEx1)).2 ∧
    gfc_inv_opt (gfc_list_delete_data (some gfcEx1) 3).2 ∧
    gfc_inv_opt (gfc_list_swap_indices (some gfcEx1) 0 1) ∧
    gfc_inv_opt (gfc_list_concat (some gfcEx1) (some gfcEx2)) ∧
    gfc_inv_opt (gfc_list_concat_free (some gfcEx1) (some gfcEx2)) ∧
    (∀ i, (gfc_list_get_nth (some gfcEx1) i).isSome ↔ i < gfcEx1.count)) :=
  ⟨by decide, by decide,
    gfc_list_invariant_preserved gfcEx1 gfcEx2 3 1 0 1 (by decide)
      (by decide)⟩

/-- A concrete one-slot heap used by the handle-identity witness. -/
def gfcHeapEx : GfcHeap :=
  fun q => if q = 0 then some (gfc_list_new_size 1) else none

/-- The heap after appending the value 7 to the container at address 0. -/
def gfcHeapEx2 : GfcHeap :=
  fun q => if q = 0 then some ⟨[⟨7⟩], 1⟩ else gfcHeapEx q

/-- C10: whenever the heap-level `gfc_list_append` succeeds, the handle it
returns is pointer-equal to the list argument it was given — the container
header is updated in place at the caller's address and never relocated (only
the internal element storage may move). -/
theorem gfc_heap_append_handle (h : GfcHeap) (p : Nat) (v : Ptr)
    (h2 : GfcHeap) (r : Nat)
    (hs : gfc_heap_append h p v = some (h2, r)) : r = p := by
  unfold gfc_heap_append at hs
  cases hp : h p with
  | none =>
    rw [hp] at hs
    simp at hs
  | some l =>
    rw [hp] at hs
    simp only [gfc_list_append, Option.some.injEq, Prod.mk.injEq] at hs
    exact hs.2.symm

/-- Witness: the handle returned by a successful concrete heap-level append is
the address that was passed in. -/
theorem gfc_heap_append_handle_witness : (0 : Nat) = 0 :=
  gfc_heap_append_handle gfcHeapEx 0 7 gfcHeapEx2 0 (by rfl)
